import Mathlib

/-!
Verification of the MXH local-geometry engine
(`pyrokinetics/local_geometry/mxh.py`, class `LocalGeometryMXH`).

The numeric code is embedded shallowly: float arrays become `List ℚ`
(for the pure bookkeeping and clamping code) or `List ℝ` / `Fin 4 → ℝ`
(for the trigonometric derivative engine); `scipy` results become
explicit records; a Python `raise` becomes `Except.error`.
-/

open Real

/-- `LocalGeometryMXH.n_moments` (mxh.py line 261): fixed harmonic order 4. -/
def n_moments : ℕ := 4

/-! ### Post-solver bookkeeping of `_set_shape_coefficients`, mxh.py lines 226-251

`least_squares` returns an object with fields `success`, `message`, `cost`
and solution vector `x`; the method then either raises, or stores the
shape parameters (possibly after emitting the poor-fit warning). -/

/-- Result object returned by `scipy.optimize.least_squares`. -/
structure FitResult where
  success : Bool
  message : String
  cost : ℚ
  x : List ℚ
  deriving DecidableEq

/-- The shape attributes `_set_shape_coefficients` stores after the solve
(mxh.py lines 244-251). -/
structure FitState where
  shift : ℚ
  s_kappa : ℚ
  dZ0dr : ℚ
  dcndr : List ℚ
  dsndr : List ℚ
  deriving DecidableEq

/-- mxh.py lines 229-251: after `least_squares` returns `fits`, raise on
failure (the message interpolates only `fits.message`); otherwise warn when
`fits.cost > 0.1` (returned Bool), store `shift = x[0]`, `s_kappa = x[1]`,
`dZ0dr = x[2]`, `dcndr = x[3 : n_moments+3]`, `dsndr = x[n_moments+3 :]`,
and finally force `dsndr[0] = 0.0`. -/
def fitFinish (fits : FitResult) : Except String (FitState × Bool) :=
  if fits.success = false then
    Except.error
      ("Least squares fitting in MXH::from_global_eq failed with message : "
        ++ fits.message)
  else
    Except.ok
      ({ shift := fits.x.getD 0 0
         s_kappa := fits.x.getD 1 0
         dZ0dr := fits.x.getD 2 0
         dcndr := (fits.x.drop 3).take n_moments
         dsndr := (fits.x.drop (n_moments + 3)).set 0 0 },
       decide ((0.1 : ℚ) < fits.cost))

/-- C3: for every solver result reported successful (with the parameter
vector of the length `3 + 2 * n_moments` the code always passes), the stored
`dsndr` has first entry exactly `0`, regardless of what the solver returned
in that slot. -/
theorem fit_dsndr0_zero (f : FitResult) (st : FitState) (w : Bool)
    (hs : f.success = true) (hl : f.x.length = 3 + 2 * n_moments)
    (hfit : fitFinish f = Except.ok (st, w)) :
    st.dsndr.head? = some 0 := by
  have hdl : (f.x.drop (n_moments + 3)).length = 4 := by
    simp [List.length_drop, hl, n_moments]
  have hne : f.x.drop (n_moments + 3) ≠ [] := by
    intro h
    rw [h] at hdl
    simp at hdl
  obtain ⟨a, l, hal⟩ := List.exists_cons_of_ne_nil hne
  have : fitFinish f =
      Except.ok
        ({ shift := f.x.getD 0 0
           s_kappa := f.x.getD 1 0
           dZ0dr := f.x.getD 2 0
           dcndr := (f.x.drop 3).take n_moments
           dsndr := (f.x.drop (n_moments + 3)).set 0 0 },
         decide ((0.1 : ℚ) < f.cost)) := by
    simp [fitFinish, hs]
  rw [this] at hfit
  have hst : st.dsndr = (f.x.drop (n_moments + 3)).set 0 0 := by
    cases hfit
    rfl
  rw [hst, hal]
  rfl

/-- Witness for C3 at a concrete successful solver result. -/
theorem fit_dsndr0_zero_witness :
    (([0, 9, 10, 11] : List ℚ)).head? = some 0 :=
  fit_dsndr0_zero ⟨true, "m", 0, [1, 2, 3, 4, 5, 6, 7, 8, 9, 10, 11]⟩
    ⟨1, 2, 3, [4, 5, 6, 7], [0, 9, 10, 11]⟩ (decide ((0.1 : ℚ) < 0)) rfl rfl rfl

/-- C4 counterexample: two failing solver results with the same diagnostic
message but different final residual costs produce the *same* error value,
so the raised error does not carry the residual cost. -/
theorem fit_error_ignores_cost :
    fitFinish ⟨false, "m", 0, []⟩ = fitFinish ⟨false, "m", 1, []⟩ ∧
      (0 : ℚ) ≠ 1 := by
  exact ⟨rfl, by norm_num⟩

/-- C4 amended: whenever the solver reports failure, the fit raises an error
that carries the solver's diagnostic message (but not the residual cost),
and the error is returned to the caller unconditionally. -/
theorem fit_failure_raises (f : FitResult) (hs : f.success = false) :
    fitFinish f = Except.error
      ("Least squares fitting in MXH::from_global_eq failed with message : "
        ++ f.message) := by
  simp [fitFinish, hs]

/-- Witness for the amended C4 at a concrete failing solver result. -/
theorem fit_failure_raises_witness :
    fitFinish ⟨false, "boom", 2, []⟩ = Except.error
      ("Least squares fitting in MXH::from_global_eq failed with message : "
        ++ "boom") :=
  fit_failure_raises ⟨false, "boom", 2, []⟩ rfl

/-- C8: if the solver reports success but the residual cost exceeds `0.1`,
the fit still completes normally (`Except.ok`), the advisory warning fires
(flag `true`), and the fitted parameters are stored from the solution
vector (with `dsndr[0]` zeroed). -/
theorem fit_poor_warns (f : FitResult) (hs : f.success = true)
    (hc : (0.1 : ℚ) < f.cost) :
    fitFinish f = Except.ok
      ({ shift := f.x.getD 0 0
         s_kappa := f.x.getD 1 0
         dZ0dr := f.x.getD 2 0
         dcndr := (f.x.drop 3).take n_moments
         dsndr := (f.x.drop (n_moments + 3)).set 0 0 }, true) := by
  have hw : decide ((0.1 : ℚ) < f.cost) = true := decide_eq_true hc
  simp [fitFinish, hs, hw]

/-- Witness for C8 at a concrete high-residual successful solver result. -/
theorem fit_poor_warns_witness :
    fitFinish ⟨true, "ok", 1, [0, 0, 0, 0, 0, 0, 0, 0, 0, 0, 0]⟩ =
      Except.ok
        ({ shift := (([0, 0, 0, 0, 0, 0, 0, 0, 0, 0, 0] : List ℚ)).getD 0 0
           s_kappa := (([0, 0, 0, 0, 0, 0, 0, 0, 0, 0, 0] : List ℚ)).getD 1 0
           dZ0dr := (([0, 0, 0, 0, 0, 0, 0, 0, 0, 0, 0] : List ℚ)).getD 2 0
           dcndr := ((([0, 0, 0, 0, 0, 0, 0, 0, 0, 0, 0] : List ℚ)).drop 3).take n_moments
           dsndr := ((([0, 0, 0, 0, 0, 0, 0, 0, 0, 0, 0] : List ℚ)).drop (n_moments + 3)).set 0 0 },
         true) :=
  fit_poor_warns ⟨true, "ok", 1, [0, 0, 0, 0, 0, 0, 0, 0, 0, 0, 0]⟩ rfl
    (by norm_num)

/-! ### Inverse-trig input clamping, mxh.py lines 172-193

`np.isclose(a, b, rtol, atol)` holds when `|a - b| <= atol + rtol * |b|`;
the code calls it with the numpy defaults `rtol = 1e-5`, `atol = 1e-8` for
the normalised height and with `rtol = 1e-5` (default), `atol = 1e-4` for
the normalised radius.  Each array value close to `1.0` is replaced by
`1.0` (first `np.where`), then each value close to `-1.0` by `-1.0`
(second `np.where`). -/

/-- One element of the two chained `np.where(np.isclose(...))` clamps. -/
def clampPM (rtol atol x : ℚ) : ℚ :=
  let y := if |x - 1| ≤ atol + rtol * |(1 : ℚ)| then 1 else x
  if |y - (-1)| ≤ atol + rtol * |(-1 : ℚ)| then -1 else y

/-- Clamp applied to the normalised height (mxh.py lines 175-180):
numpy default tolerances `rtol = 1e-5`, `atol = 1e-8`. -/
def clampHeight (x : ℚ) : ℚ := clampPM (1 / 100000) (1 / 100000000) x

/-- Clamp applied to the normalised radius (mxh.py lines 186-191):
`atol = 1e-4` explicit, `rtol = 1e-5` from the numpy default. -/
def clampRadius (x : ℚ) : ℚ := clampPM (1 / 100000) (1 / 10000) x

lemma clampPM_spec (rtol atol x : ℚ) (h0 : 0 ≤ atol + rtol)
    (h1 : atol + rtol < 1) :
    (clampPM rtol atol x = 1 ↔ |x - 1| ≤ atol + rtol) ∧
    (clampPM rtol atol x = -1 ↔ |x + 1| ≤ atol + rtol) := by
  have two_le : ∀ a : ℚ, |a - 1| ≤ atol + rtol → ¬ |a + 1| ≤ atol + rtol := by
    intro a ha hb
    have h2 : |(a + 1) - (a - 1)| ≤ |a + 1| + |a - 1| := abs_sub (a + 1) (a - 1)
    rw [show (a + 1) - (a - 1) = (2 : ℚ) by ring] at h2
    rw [show |(2 : ℚ)| = 2 by norm_num] at h2
    linarith
  simp only [clampPM, abs_one, abs_neg, mul_one, sub_neg_eq_add]
  by_cases hc1 : |x - 1| ≤ atol + rtol
  · rw [if_pos hc1]
    have h2 : ¬ (|(1 : ℚ) + 1| ≤ atol + rtol) := by
      rw [show |(1 : ℚ) + 1| = 2 by norm_num]
      linarith
    rw [if_neg h2]
    constructor
    · exact iff_of_true rfl hc1
    · exact iff_of_false (by norm_num) (two_le x hc1)
  · rw [if_neg hc1]
    by_cases hc2 : |x + 1| ≤ atol + rtol
    · rw [if_pos hc2]
      constructor
      · refine iff_of_false (by norm_num) hc1
      · exact iff_of_true rfl hc2
    · rw [if_neg hc2]
      constructor
      · refine iff_of_false ?_ hc1
        intro hx
        exact hc1 (by rw [hx]; simpa using h0)
      · refine iff_of_false ?_ hc2
        intro hx
        exact hc2 (by rw [hx]; simpa using h0)

/-- C7 counterexample: the value `1 - 1e-6` is clamped to exactly `1` by the
height clamp although it is *not* within `1e-8` of `1` (the numpy default
relative tolerance `1e-5` dominates the advertised `1e-8`). -/
theorem clamp_height_beyond_stated_tol :
    clampHeight (1 - 1 / 1000000) = 1 ∧
      ¬ (|(1 - 1 / 1000000 : ℚ) - 1| ≤ 1 / 100000000) := by
  have habs : |(1 - 1 / 1000000 : ℚ) - 1| = 1 / 1000000 := by
    rw [show (1 - 1 / 1000000 : ℚ) - 1 = -(1 / 1000000) by ring, abs_neg,
      abs_of_nonneg (by norm_num : (0 : ℚ) ≤ 1 / 1000000)]
  constructor
  · exact (clampPM_spec (1 / 100000) (1 / 100000000) _ (by norm_num)
      (by norm_num)).1.mpr (by rw [habs]; norm_num)
  · rw [habs]
    norm_num

/-- C7 amended: the clamping thresholds are those of `np.isclose` with the
numpy default `rtol = 1e-5`: the height is replaced by `±1` exactly when it
is within `1e-8 + 1e-5` of `±1`, the radius exactly when within
`1e-4 + 1e-5`; the stated absolute tolerances `1e-8` and `1e-4` are the two
distinct `atol` arguments, and the resulting thresholds remain distinct and
not interchangeable. -/
theorem clamp_tolerances (x : ℚ) :
    (clampHeight x = 1 ↔ |x - 1| ≤ 1 / 100000000 + 1 / 100000) ∧
    (clampHeight x = -1 ↔ |x + 1| ≤ 1 / 100000000 + 1 / 100000) ∧
    (clampRadius x = 1 ↔ |x - 1| ≤ 1 / 10000 + 1 / 100000) ∧
    (clampRadius x = -1 ↔ |x + 1| ≤ 1 / 10000 + 1 / 100000) ∧
    (1 / 100000000 + 1 / 100000 : ℚ) ≠ 1 / 10000 + 1 / 100000 := by
  obtain ⟨h1, h2⟩ := clampPM_spec (1 / 100000) (1 / 100000000) x
    (by norm_num) (by norm_num)
  obtain ⟨h3, h4⟩ := clampPM_spec (1 / 100000) (1 / 10000) x
    (by norm_num) (by norm_num)
  exact ⟨h1, h2, h3, h4, by norm_num⟩

/-! ### Branch disambiguation point, mxh.py lines 164-170

`kappa = (max(Z) - min(Z)) / (2 * r_minor)`, `Zmid = (max(Z) + min(Z)) / 2`,
`Zind = np.argmax(abs(Z))`, `R_upper = R[Zind]`. -/

/-- Python `max` over a nonempty list (`max(Z)`). -/
def lmax : List ℚ → ℚ
  | [] => 0
  | x :: xs => xs.foldl max x

/-- Python `min` over a nonempty list (`min(Z)`). -/
def lmin : List ℚ → ℚ
  | [] => 0
  | x :: xs => xs.foldl min x

/-- mxh.py line 166: `Zmid = (max(Z) + min(Z)) / 2`. -/
def Zmid (Z : List ℚ) : ℚ := (lmax Z + lmin Z) / 2

/-- The maximum of `abs(Z)`. -/
def maxAbs (Z : List ℚ) : ℚ := lmax (Z.map (fun z => |z|))

/-- mxh.py line 168: `Zind = np.argmax(abs(Z))`, the first index attaining
the maximum of `|Z|`. -/
def Zind (Z : List ℚ) : ℕ := Z.findIdx (fun z => decide (|z| = maxAbs Z))

/-- mxh.py line 170: `R_upper = R[Zind]`. -/
def R_upper (R Z : List ℚ) : ℚ := R.getD (Zind Z) 0

/-- Modelled from the spec's words, for comparison with `R_upper`:
the maximum of `|Z - Zmid|` over the contour. -/
def maxDevSpec (Z : List ℚ) : ℚ := lmax (Z.map (fun z => |z - Zmid Z|))

/-- Modelled from the spec's words: the contour index of maximal
`|Z - Zmid|` (first index attaining it). -/
def ZindSpec (Z : List ℚ) : ℕ :=
  Z.findIdx (fun z => decide (|z - Zmid Z| = maxDevSpec Z))

/-- Modelled from the spec's words: the R value at the index of maximal
`|Z - Zmid|`. -/
def R_upperSpec (R Z : List ℚ) : ℚ := R.getD (ZindSpec Z) 0

lemma foldl_max_bounds (l : List ℚ) :
    ∀ a : ℚ, a ≤ l.foldl max a ∧ ∀ x ∈ l, x ≤ l.foldl max a := by
  induction l with
  | nil => intro a; exact ⟨le_refl a, by simp⟩
  | cons x xs ih =>
    intro a
    obtain ⟨h1, h2⟩ := ih (max a x)
    refine ⟨le_trans (le_max_left a x) h1, ?_⟩
    intro y hy
    rcases List.mem_cons.mp hy with h | h
    · subst h
      exact le_trans (le_max_right a y) h1
    · exact h2 y h

lemma foldl_max_mem (l : List ℚ) :
    ∀ a : ℚ, l.foldl max a = a ∨ l.foldl max a ∈ l := by
  induction l with
  | nil => intro a; exact Or.inl rfl
  | cons x xs ih =>
    intro a
    rcases ih (max a x) with h | h
    · rcases max_choice a x with hc | hc
      · exact Or.inl (by rw [List.foldl_cons, h, hc])
      · exact Or.inr (by rw [List.foldl_cons, h, hc]; exact List.mem_cons_self x xs)
    · exact Or.inr (List.mem_cons_of_mem x h)

lemma foldl_min_bounds (l : List ℚ) :
    ∀ a : ℚ, l.foldl min a ≤ a ∧ ∀ x ∈ l, l.foldl min a ≤ x := by
  induction l with
  | nil => intro a; exact ⟨le_refl a, by simp⟩
  | cons x xs ih =>
    intro a
    obtain ⟨h1, h2⟩ := ih (min a x)
    refine ⟨le_trans h1 (min_le_left a x), ?_⟩
    intro y hy
    rcases List.mem_cons.mp hy with h | h
    · subst h
      exact le_trans h1 (min_le_right a y)
    · exact h2 y h

lemma foldl_min_mem (l : List ℚ) :
    ∀ a : ℚ, l.foldl min a = a ∨ l.foldl min a ∈ l := by
  induction l with
  | nil => intro a; exact Or.inl rfl
  | cons x xs ih =>
    intro a
    rcases ih (min a x) with h | h
    · rcases min_choice a x with hc | hc
      · exact Or.inl (by rw [List.foldl_cons, h, hc])
      · exact Or.inr (by rw [List.foldl_cons, h, hc]; exact List.mem_cons_self x xs)
    · exact Or.inr (List.mem_cons_of_mem x h)

lemma lmax_spec (Z : List ℚ) (h : Z ≠ []) :
    lmax Z ∈ Z ∧ ∀ x ∈ Z, x ≤ lmax Z := by
  obtain ⟨b, L, rfl⟩ := List.exists_cons_of_ne_nil h
  have hl : lmax (b :: L) = L.foldl max b := rfl
  constructor
  · rw [hl]
    rcases foldl_max_mem L b with h1 | h1
    · rw [h1]
      exact List.mem_cons_self b L
    · exact List.mem_cons_of_mem b h1
  · intro x hx
    rw [hl]
    rcases List.mem_cons.mp hx with h1 | h1
    · subst h1
      exact (foldl_max_bounds L x).1
    · exact (foldl_max_bounds L b).2 x h1

lemma lmin_spec (Z : List ℚ) (h : Z ≠ []) :
    lmin Z ∈ Z ∧ ∀ x ∈ Z, lmin Z ≤ x := by
  obtain ⟨b, L, rfl⟩ := List.exists_cons_of_ne_nil h
  have hl : lmin (b :: L) = L.foldl min b := rfl
  constructor
  · rw [hl]
    rcases foldl_min_mem L b with h1 | h1
    · rw [h1]
      exact List.mem_cons_self b L
    · exact List.mem_cons_of_mem b h1
  · intro x hx
    rw [hl]
    rcases List.mem_cons.mp hx with h1 | h1
    · subst h1
      exact (foldl_min_bounds L x).1
    · exact (foldl_min_bounds L b).2 x h1

/-- C2 counterexample: on the contour `R = [10, 20]`, `Z = [-3, 5]` the code
picks `R_upper = R[np.argmax(abs(Z))] = 20`, while the first index of
maximal `|Z - Zmid|` (here `Zmid = 1`, both deviations equal `4`) gives
`10`. -/
theorem R_upper_ne_spec_R_upper :
    R_upper [10, 20] [-3, 5] ≠ R_upperSpec [10, 20] [-3, 5] := by
  have hZmid : Zmid [-3, 5] = 1 := by
    have hmax : lmax [-3, 5] = 5 := by decide
    have hmin : lmin [-3, 5] = -3 := by decide
    rw [Zmid, hmax, hmin]
    norm_num
  have h4a : |(-3 : ℚ) - 1| = 4 := by
    rw [show (-3 : ℚ) - 1 = -4 by norm_num, abs_neg,
      abs_of_nonneg (by norm_num : (0 : ℚ) ≤ 4)]
  have h4b : |(5 : ℚ) - 1| = 4 := by
    rw [show (5 : ℚ) - 1 = 4 by norm_num,
      abs_of_nonneg (by norm_num : (0 : ℚ) ≤ 4)]
  have hmd : maxDevSpec [-3, 5] = 4 := by
    simp only [maxDevSpec, hZmid, List.map_cons, List.map_nil, h4a, h4b]
    decide
  have hZiS : ZindSpec [-3, 5] = 0 := by
    simp only [ZindSpec, hZmid, hmd, List.findIdx_cons, h4a]
    simp
  have hZi : Zind [-3, 5] = 1 := by decide
  simp only [R_upper, R_upperSpec, hZi, hZiS]
  decide

/-- C2 amended: `R_upper` is the R value at `np.argmax(abs(Z))`, the first
index of maximal `|Z|` measured from `Z = 0`; this index nevertheless always
attains the maximum of `|Z - Zmid|`, so it is *an* extremum of vertical
displacement from the midplane, though (as the counterexample shows) not
necessarily the first one. -/
theorem R_upper_attains_max_dev (R Z : List ℚ) (hne : Z ≠ []) (x : ℚ)
    (hx : x ∈ Z) :
    R_upper R Z = R.getD (Zind Z) 0 ∧
      |x - Zmid Z| ≤ |Z.getD (Zind Z) 0 - Zmid Z| := by
  obtain ⟨hMmem, hMub⟩ := lmax_spec Z hne
  obtain ⟨hmmem, hmlb⟩ := lmin_spec Z hne
  have hmapne : Z.map (fun z => |z|) ≠ [] := by
    simpa [List.map_eq_nil_iff] using hne
  obtain ⟨hamem, haub⟩ := lmax_spec (Z.map (fun z => |z|)) hmapne
  obtain ⟨e0, hemem0, hea⟩ := List.mem_map.mp hamem
  have hex : ∃ z ∈ Z, (fun z => decide (|z| = maxAbs Z)) z = true :=
    ⟨e0, hemem0, by simpa [maxAbs] using hea⟩
  have hlt : Zind Z < Z.length := List.findIdx_lt_length_of_exists hex
  have hgd : Z.getD (Zind Z) 0 = Z[Zind Z] := List.getD_eq_getElem Z 0 hlt
  have hp : |Z[Zind Z]| = maxAbs Z := by
    have := @List.findIdx_getElem _ (fun z => decide (|z| = maxAbs Z)) Z hlt
    exact of_decide_eq_true this
  set v := Z[Zind Z] with hv
  have hvmem : v ∈ Z := List.getElem_mem hlt
  have hub : ∀ y ∈ Z, |y| ≤ |v| := by
    intro y hy
    rw [hp]
    exact haub _ (List.mem_map_of_mem (fun z => |z|) hy)
  have hvm : lmin Z ≤ v := hmlb v hvmem
  have hvM : v ≤ lmax Z := hMub v hvmem
  have hmM : lmin Z ≤ lmax Z := hmlb _ hMmem
  have hcase : v = lmax Z ∨ v = lmin Z := by
    rcases le_or_lt 0 v with h0 | h0
    · left
      have h1 : |lmax Z| ≤ |v| := hub _ hMmem
      have h2 : lmax Z ≤ |lmax Z| := le_abs_self _
      have h3 : |v| = v := abs_of_nonneg h0
      linarith
    · right
      have h1 : |lmin Z| ≤ |v| := hub _ hmmem
      have h2 : -lmin Z ≤ |lmin Z| := neg_le_abs _
      have h3 : |v| = -v := abs_of_neg h0
      linarith
  have hxm : lmin Z ≤ x := hmlb x hx
  have hxM : x ≤ lmax Z := hMub x hx
  have hdev_x : |x - Zmid Z| ≤ (lmax Z - lmin Z) / 2 := by
    rw [abs_le, Zmid]
    constructor <;> [linarith; linarith]
  have hdev_v : |v - Zmid Z| = (lmax Z - lmin Z) / 2 := by
    rcases hcase with h | h <;> rw [h, Zmid]
    · rw [show lmax Z - (lmax Z + lmin Z) / 2 = (lmax Z - lmin Z) / 2 by ring,
        abs_of_nonneg (by linarith)]
    · rw [show lmin Z - (lmax Z + lmin Z) / 2 = -((lmax Z - lmin Z) / 2) by ring,
        abs_neg, abs_of_nonneg (by linarith)]
  refine ⟨rfl, ?_⟩
  rw [hgd, hdev_v]
  exact hdev_x

/-- Witness for the amended C2 at a concrete contour. -/
theorem R_upper_attains_max_dev_witness :
    R_upper [10, 20] [-3, 5] = ([10, 20] : List ℚ).getD (Zind [-3, 5]) 0 ∧
      |(-3 : ℚ) - Zmid [-3, 5]| ≤ |([-3, 5] : List ℚ).getD (Zind [-3, 5]) 0 - Zmid [-3, 5]| :=
  R_upper_attains_max_dev [10, 20] [-3, 5] (by decide) (-3) (by decide)

/-! ### Angle wrap handling, mxh.py lines 199-202

After branch correction the code runs
`if theta[0] > np.pi: theta[0] += -2*np.pi; thetaR[0] += -2*np.pi` —
an element assignment touching index 0 only. -/

open Classical in
/-- mxh.py lines 199-202: wrap fix applied to the post-branch-correction
angle arrays. -/
noncomputable def wrapFix (theta thetaR : List ℝ) : List ℝ × List ℝ :=
  if Real.pi < theta.headI then
    (theta.set 0 (theta.headI - 2 * Real.pi),
     thetaR.set 0 (thetaR.headI - 2 * Real.pi))
  else (theta, thetaR)

/-- C1 counterexample: on the angle sequence `[4, 4]` (first sample exceeds
π) the code shifts only the first element, so the claimed whole-sequence
shift `[4 - 2π, 4 - 2π]` is not what is produced. -/
theorem wrapFix_not_whole_sequence :
    (wrapFix [4, 4] [4, 4]).1 ≠ [4 - 2 * Real.pi, 4 - 2 * Real.pi] := by
  have hpi : Real.pi < (([4, 4] : List ℝ)).headI := by
    have h1 : Real.pi < 3.15 := Real.pi_lt_d2
    have h2 : (3.15 : ℝ) < 4 := by norm_num
    simpa [List.headI] using lt_trans h1 h2
  intro h
  rw [wrapFix, if_pos hpi] at h
  simp only [List.headI, List.set] at h
  obtain ⟨-, h2⟩ := List.cons_eq_cons.mp h
  obtain ⟨h3, -⟩ := List.cons_eq_cons.mp h2
  have hpos := Real.pi_pos
  have : (2 : ℝ) * Real.pi = 0 := by linarith
  nlinarith

/-- C1 amended: if the first θ sample exceeds π, only the *first* elements
of θ and θ_R are shifted by −2π; all later elements are left unchanged. -/
theorem wrapFix_first_only (theta thetaR : List ℝ) (hne : theta ≠ [])
    (h : Real.pi < theta.headI) :
    (wrapFix theta thetaR).1.headI = theta.headI - 2 * Real.pi ∧
    (wrapFix theta thetaR).1.tail = theta.tail ∧
    (wrapFix theta thetaR).2.tail = thetaR.tail ∧
    (thetaR ≠ [] →
      (wrapFix theta thetaR).2.headI = thetaR.headI - 2 * Real.pi) := by
  rw [wrapFix, if_pos h]
  obtain ⟨a, l, rfl⟩ := List.exists_cons_of_ne_nil hne
  refine ⟨?_, ?_, ?_, ?_⟩
  · simp
  · simp
  · cases thetaR with
    | nil => simp
    | cons b m => simp
  · intro hR
    obtain ⟨b, m, rfl⟩ := List.exists_cons_of_ne_nil hR
    simp

/-- Witness for the amended C1 at a concrete wrapped angle pair. -/
theorem wrapFix_first_only_witness :
    (wrapFix [4] [5]).1.headI = (([4] : List ℝ)).headI - 2 * Real.pi ∧
    (wrapFix [4] [5]).1.tail = (([4] : List ℝ)).tail ∧
    (wrapFix [4] [5]).2.tail = (([5] : List ℝ)).tail ∧
    (([5] : List ℝ) ≠ [] →
      (wrapFix [4] [5]).2.headI = (([5] : List ℝ)).headI - 2 * Real.pi) :=
  wrapFix_first_only [4] [5] (by simp)
    (by
      have h1 : Real.pi < 3.15 := Real.pi_lt_d2
      have h2 : (3.15 : ℝ) < 4 := by norm_num
      simpa [List.headI] using lt_trans h1 h2)

/-! ### Harmonic decomposition, mxh.py lines 206-211

`theta_diff = thetaR - theta`; `ntheta = np.outer(self.n, theta)` with
`self.n = np.linspace(0, n_moments-1, n_moments) = [0, 1, 2, 3]`
(mxh.py line 257); then
`cn = simpson(theta_diff * np.cos(ntheta), theta, axis=1) / np.pi` and
`sn = simpson(theta_diff * np.sin(ntheta), theta, axis=1) / np.pi`. -/

/-- One pair-of-intervals contribution of composite Simpson quadrature on a
possibly irregular grid (the formula used by `scipy.integrate.simpson`). -/
noncomputable def simpsonSeg (x0 x1 x2 y0 y1 y2 : ℝ) : ℝ :=
  (x1 - x0 + (x2 - x1)) / 6 *
    ((2 - (x2 - x1) / (x1 - x0)) * y0 +
      (x1 - x0 + (x2 - x1)) ^ 2 / ((x1 - x0) * (x2 - x1)) * y1 +
      (2 - (x1 - x0) / (x2 - x1)) * y2)

/-- `scipy.integrate.simpson(y, x)`: composite Simpson quadrature over
consecutive pairs of intervals (covers an odd number of sample points, the
case relevant to the fitting grid). -/
noncomputable def simpsonQ : List ℝ → List ℝ → ℝ
  | y0 :: y1 :: y2 :: ys, x0 :: x1 :: x2 :: xs =>
    simpsonSeg x0 x1 x2 y0 y1 y2 + simpsonQ (y2 :: ys) (x2 :: xs)
  | _, _ => 0
  termination_by ys _ => ys.length
  decreasing_by simp

/-- `self.n` (mxh.py line 257): `np.linspace(0, n_moments - 1, n_moments)`,
which is exactly `[0, 1, 2, 3]`. -/
noncomputable def nVals : List ℝ := (List.range n_moments).map (fun (k : ℕ) => (k : ℝ))

/-- mxh.py line 210: the cosine moments of `thetaR - theta`. -/
noncomputable def cnOf (theta thetaR : List ℝ) : List ℝ :=
  nVals.map (fun nv =>
    simpsonQ
      (List.zipWith (fun d t => d * Real.cos (nv * t))
        (List.zipWith (fun a b => a - b) thetaR theta) theta)
      theta / Real.pi)

/-- mxh.py line 211: the sine moments of `thetaR - theta`. -/
noncomputable def snOf (theta thetaR : List ℝ) : List ℝ :=
  nVals.map (fun nv =>
    simpsonQ
      (List.zipWith (fun d t => d * Real.sin (nv * t))
        (List.zipWith (fun a b => a - b) thetaR theta) theta)
      theta / Real.pi)

lemma nVals_getD (k : ℕ) (hk : k < n_moments) : nVals.getD k 0 = (k : ℝ) := by
  have hklen : k < nVals.length := by
    simpa [nVals] using hk
  rw [List.getD_eq_getElem _ _ hklen]
  simp only [nVals, List.getElem_map, List.getElem_range]

/-- C5: for every harmonic index `k < n_moments`, `cn[k]` is `1/π` times the
composite Simpson quadrature of `(θ_R(θ) - θ)·cos(kθ)` against the θ grid,
and `sn[k]` likewise with `sin(kθ)`; the only normalisation is the `1/π`
factor, for every `k` including `k = 0`. -/
theorem cn_sn_are_simpson_projections (theta thetaR : List ℝ) (k : ℕ)
    (hk : k < n_moments) :
    (cnOf theta thetaR).getD k 0 =
      (1 / Real.pi) *
        simpsonQ
          (List.zipWith (fun d t => d * Real.cos ((k : ℝ) * t))
            (List.zipWith (fun a b => a - b) thetaR theta) theta)
          theta ∧
    (snOf theta thetaR).getD k 0 =
      (1 / Real.pi) *
        simpsonQ
          (List.zipWith (fun d t => d * Real.sin ((k : ℝ) * t))
            (List.zipWith (fun a b => a - b) thetaR theta) theta)
          theta := by
  have hklen : k < nVals.length := by
    simpa [nVals] using hk
  constructor
  · rw [cnOf, List.getD_eq_getElem _ _ (by simpa using hklen), List.getElem_map]
    rw [show nVals[k] = (k : ℝ) by
      simp only [nVals, List.getElem_map, List.getElem_range]]
    ring
  · rw [snOf, List.getD_eq_getElem _ _ (by simpa using hklen), List.getElem_map]
    rw [show nVals[k] = (k : ℝ) by
      simp only [nVals, List.getElem_map, List.getElem_range]]
    ring

/-- Witness for C5 at harmonic `k = 2` on a concrete three-point grid. -/
theorem cn_sn_are_simpson_projections_witness :
    (cnOf [0, 1, 2] [1, 2, 3]).getD 2 0 =
      (1 / Real.pi) *
        simpsonQ
          (List.zipWith (fun d t => d * Real.cos ((2 : ℕ) * t))
            (List.zipWith (fun a b => a - b) [1, 2, 3] [0, 1, 2]) [0, 1, 2])
          [0, 1, 2] ∧
    (snOf [0, 1, 2] [1, 2, 3]).getD 2 0 =
      (1 / Real.pi) *
        simpsonQ
          (List.zipWith (fun d t => d * Real.sin ((2 : ℕ) * t))
            (List.zipWith (fun a b => a - b) [1, 2, 3] [0, 1, 2]) [0, 1, 2])
          [0, 1, 2] :=
  cn_sn_are_simpson_projections [0, 1, 2] [1, 2, 3] 2 (by decide)

/-! ### Derivative engine, mxh.py lines 255-692

Stored attributes of a fitted `LocalGeometryMXH` and the closed-form
derivative methods.  Methods that mutate no attribute are embedded in
state-passing style returning the object as the source leaves it. -/

/-- Stored shape attributes of `LocalGeometryMXH` used by the derivative
engine. -/
structure MXHGeo where
  rho : ℝ
  r_minor : ℝ
  kappa : ℝ
  shift : ℝ
  s_kappa : ℝ
  dZ0dr : ℝ
  cn : Fin n_moments → ℝ
  sn : Fin n_moments → ℝ
  dcndr : Fin n_moments → ℝ
  dsndr : Fin n_moments → ℝ

/-- The alternate parameter vector accepted by `get_RZ_derivatives`
(mxh.py lines 448-453): `params = [shift, s_kappa, dZ0dr, dcndr, dsndr]`. -/
structure MXHParams where
  shift : ℝ
  s_kappa : ℝ
  dZ0dr : ℝ
  dcndr : Fin n_moments → ℝ
  dsndr : Fin n_moments → ℝ

/-- mxh.py lines 295-315 (`get_thetaR`):
`thetaR = theta + sum(cn * cos(n*theta) + sn * sin(n*theta))`. -/
noncomputable def get_thetaR (g : MXHGeo) (theta : ℝ) : ℝ :=
  theta + ∑ k : Fin n_moments,
    (g.cn k * Real.cos (((k : ℕ) : ℝ) * theta) +
      g.sn k * Real.sin (((k : ℕ) : ℝ) * theta))

/-- mxh.py lines 317-337 (`get_dthetaR_dtheta`):
`1 + sum(-cn * n * sin(n*theta) + sn * n * cos(n*theta))`. -/
noncomputable def get_dthetaR_dtheta (g : MXHGeo) (theta : ℝ) : ℝ :=
  1 + ∑ k : Fin n_moments,
    (-g.cn k * ((k : ℕ) : ℝ) * Real.sin (((k : ℕ) : ℝ) * theta) +
      g.sn k * ((k : ℕ) : ℝ) * Real.cos (((k : ℕ) : ℝ) * theta))

/-- mxh.py lines 339-359 (`get_d2thetaR_dtheta2`):
`-sum(n^2 * (cn * cos(n*theta) + sn * sin(n*theta)))`. -/
noncomputable def get_d2thetaR_dtheta2 (g : MXHGeo) (theta : ℝ) : ℝ :=
  -∑ k : Fin n_moments,
    ((((k : ℕ) : ℝ)) ^ 2 *
      (g.cn k * Real.cos (((k : ℕ) : ℝ) * theta) +
        g.sn k * Real.sin (((k : ℕ) : ℝ) * theta)))

/-- mxh.py lines 361-384 (`get_dthetaR_dr`):
`sum(dcndr * cos(n*theta) + dsndr * sin(n*theta))`. -/
noncomputable def get_dthetaR_dr (theta : ℝ) (dcndr dsndr : Fin n_moments → ℝ) : ℝ :=
  ∑ k : Fin n_moments,
    (dcndr k * Real.cos (((k : ℕ) : ℝ) * theta) +
      dsndr k * Real.sin (((k : ℕ) : ℝ) * theta))

/-- mxh.py lines 386-409 (`get_d2thetaR_drdtheta`):
`sum(-n * dcndr * sin(n*theta) + n * dsndr * cos(n*theta))`. -/
noncomputable def get_d2thetaR_drdtheta (theta : ℝ)
    (dcndr dsndr : Fin n_moments → ℝ) : ℝ :=
  ∑ k : Fin n_moments,
    (-((k : ℕ) : ℝ) * dcndr k * Real.sin (((k : ℕ) : ℝ) * theta) +
      ((k : ℕ) : ℝ) * dsndr k * Real.cos (((k : ℕ) : ℝ) * theta))

/-- mxh.py lines 513-533 (`get_dZdtheta`): `kappa * rmin * cos(theta)` with
`rmin = rho` when normalised else `r_minor`. -/
noncomputable def get_dZdtheta (g : MXHGeo) (theta : ℝ) (normalised : Bool) : ℝ :=
  g.kappa * (if normalised then g.rho else g.r_minor) * Real.cos theta

/-- mxh.py lines 535-555 (`get_d2Zdtheta2`): `-kappa * rmin * sin(theta)`. -/
noncomputable def get_d2Zdtheta2 (g : MXHGeo) (theta : ℝ) (normalised : Bool) : ℝ :=
  -g.kappa * (if normalised then g.rho else g.r_minor) * Real.sin theta

/-- mxh.py lines 557-575 (`get_dZdr`):
`dZ0dr + kappa * sin(theta) * (1 + s_kappa)`; no radius factor appears. -/
noncomputable def get_dZdr (g : MXHGeo) (theta dZ0dr s_kappa : ℝ) : ℝ :=
  dZ0dr + g.kappa * Real.sin theta * (1 + s_kappa)

/-- mxh.py lines 577-593 (`get_d2Zdrdtheta`):
`kappa * cos(theta) * (1 + s_kappa)`. -/
noncomputable def get_d2Zdrdtheta (g : MXHGeo) (theta s_kappa : ℝ) : ℝ :=
  g.kappa * Real.cos theta * (1 + s_kappa)

/-- mxh.py lines 595-615 (`get_dRdtheta`):
`-rmin * sin(thetaR) * dthetaR_dtheta`. -/
noncomputable def get_dRdtheta (g : MXHGeo) (thetaR dthetaR_dtheta : ℝ)
    (normalised : Bool) : ℝ :=
  -(if normalised then g.rho else g.r_minor) * Real.sin thetaR * dthetaR_dtheta

/-- mxh.py lines 617-643 (`get_d2Rdtheta2`):
`-rmin * sin(thetaR) * d2thetaR_dtheta2 - rmin * dthetaR_dtheta^2 * cos(thetaR)`. -/
noncomputable def get_d2Rdtheta2 (g : MXHGeo)
    (thetaR dthetaR_dtheta d2thetaR_dtheta2 : ℝ) (normalised : Bool) : ℝ :=
  -(if normalised then g.rho else g.r_minor) * Real.sin thetaR * d2thetaR_dtheta2 -
    (if normalised then g.rho else g.r_minor) * dthetaR_dtheta ^ 2 * Real.cos thetaR

/-- mxh.py lines 645-665 (`get_dRdr`):
`shift + cos(thetaR) - rho * sin(thetaR) * dthetaR_dr`; the radius factor is
always the normalised `self.rho`. -/
noncomputable def get_dRdr (g : MXHGeo) (shift thetaR dthetaR_dr : ℝ) : ℝ :=
  shift + Real.cos thetaR - g.rho * Real.sin thetaR * dthetaR_dr

/-- mxh.py lines 667-692 (`get_d2Rdrdtheta`). -/
noncomputable def get_d2Rdrdtheta (g : MXHGeo)
    (thetaR dthetaR_dr dthetaR_dtheta d2thetaR_drdtheta : ℝ) : ℝ :=
  -dthetaR_dtheta * Real.sin thetaR -
    g.rho * (Real.sin thetaR * d2thetaR_drdtheta +
      dthetaR_dr * dthetaR_dtheta * Real.cos thetaR)

/-- mxh.py lines 411-467 (`get_RZ_derivatives`): reads `shift`, `s_kappa`,
`dZ0dr`, `dcndr`, `dsndr` from the explicit `params` when supplied and from
the stored attributes otherwise, then assembles the four derivatives.  The
body contains no attribute assignment, which the embedding renders by
returning the object state unchanged alongside the result. -/
noncomputable def get_RZ_derivatives (g : MXHGeo) (theta : ℝ)
    (params : Option MXHParams) (normalised : Bool) :
    (ℝ × ℝ × ℝ × ℝ) × MXHGeo :=
  let p : MXHParams :=
    match params with
    | none => ⟨g.shift, g.s_kappa, g.dZ0dr, g.dcndr, g.dsndr⟩
    | some q => q
  let thetaR := get_thetaR g theta
  let dthetaR_dr := get_dthetaR_dr theta p.dcndr p.dsndr
  let dthetaR_dtheta := get_dthetaR_dtheta g theta
  let dZdtheta := get_dZdtheta g theta normalised
  let dZdr := get_dZdr g theta p.dZ0dr p.s_kappa
  let dRdtheta := get_dRdtheta g thetaR dthetaR_dtheta normalised
  let dRdr := get_dRdr g p.shift thetaR dthetaR_dr
  ((dRdtheta, dRdr, dZdtheta, dZdr), g)

/-- C9: calling `get_RZ_derivatives` with an explicitly supplied alternate
parameter vector leaves every stored attribute of the object unchanged:
the state after the call equals the state before it, for any θ, any
parameter vector and either value of the `normalised` flag. -/
theorem get_RZ_derivatives_no_mutation (g : MXHGeo) (theta : ℝ)
    (p : MXHParams) (normalised : Bool) :
    (get_RZ_derivatives g theta (some p) normalised).2 = g := rfl

/-- C10: in the bundle returned by `get_RZ_derivatives`, only the
θ-derivatives obey the `normalised` flag (they scale by `rho` versus
`r_minor`), while `dRdr` and `dZdr` are identical for both flag values and
are built from the normalised quantities (`rho`, `kappa`) with no `r_minor`
scaling — so with `normalised = False` the bundle mixes physical-unit
θ-derivatives with normalised radial derivatives. -/
theorem RZ_derivatives_flag_mixing (g : MXHGeo) (theta : ℝ) (p : MXHParams) :
    ((get_RZ_derivatives g theta (some p) false).1.2.1 =
      (get_RZ_derivatives g theta (some p) true).1.2.1) ∧
    ((get_RZ_derivatives g theta (some p) false).1.2.2.2 =
      (get_RZ_derivatives g theta (some p) true).1.2.2.2) ∧
    (g.rho * (get_RZ_derivatives g theta (some p) false).1.1 =
      g.r_minor * (get_RZ_derivatives g theta (some p) true).1.1) ∧
    (g.rho * (get_RZ_derivatives g theta (some p) false).1.2.2.1 =
      g.r_minor * (get_RZ_derivatives g theta (some p) true).1.2.2.1) ∧
    ((get_RZ_derivatives g theta (some p) false).1.2.1 =
      p.shift + Real.cos (get_thetaR g theta) -
        g.rho * Real.sin (get_thetaR g theta) *
          get_dthetaR_dr theta p.dcndr p.dsndr) ∧
    ((get_RZ_derivatives g theta (some p) false).1.2.2.2 =
      p.dZ0dr + g.kappa * Real.sin theta * (1 + p.s_kappa)) := by
  simp only [get_RZ_derivatives, get_dRdtheta, get_dRdr, get_dZdtheta,
    get_dZdr, Bool.false_eq_true, if_false, if_true]
  refine ⟨trivial, trivial, by ring, by ring, trivial, trivial⟩

lemma hasDerivAt_harmonic (c s n t : ℝ) :
    HasDerivAt (fun u => c * Real.cos (n * u) + s * Real.sin (n * u))
      (-c * n * Real.sin (n * t) + s * n * Real.cos (n * t)) t := by
  have hid : HasDerivAt (fun u : ℝ => n * u) n t := by
    simpa using (hasDerivAt_id t).const_mul n
  have hcos : HasDerivAt (fun u => Real.cos (n * u)) (-Real.sin (n * t) * n) t :=
    (Real.hasDerivAt_cos (n * t)).comp t hid
  have hsin : HasDerivAt (fun u => Real.sin (n * u)) (Real.cos (n * t) * n) t :=
    (Real.hasDerivAt_sin (n * t)).comp t hid
  have h12 := (hcos.const_mul c).add (hsin.const_mul s)
  convert h12 using 1
  ring

lemma hasDerivAt_harmonicD (c s n t : ℝ) :
    HasDerivAt (fun u => -c * n * Real.sin (n * u) + s * n * Real.cos (n * u))
      (-(n ^ 2) * (c * Real.cos (n * t) + s * Real.sin (n * t))) t := by
  have hid : HasDerivAt (fun u : ℝ => n * u) n t := by
    simpa using (hasDerivAt_id t).const_mul n
  have hcos : HasDerivAt (fun u => Real.cos (n * u)) (-Real.sin (n * t) * n) t :=
    (Real.hasDerivAt_cos (n * t)).comp t hid
  have hsin : HasDerivAt (fun u => Real.sin (n * u)) (Real.cos (n * t) * n) t :=
    (Real.hasDerivAt_sin (n * t)).comp t hid
  have h12 := (hsin.const_mul (-c * n)).add (hcos.const_mul (s * n))
  convert h12 using 1
  ring

/-- C6: the derivative engine satisfies the closed-form identities
`thetaR(θ) = θ + Σ (cn·cos(kθ) + sn·sin(kθ))` and
`d2R/dθ2 = -r·sin(θR)·d2θR/dθ2 - r·cos(θR)·(dθR/dθ)^2`, and its stored
formulas are the exact term-by-term derivatives of the harmonic sum:
`get_dthetaR_dtheta` is the true θ-derivative of `get_thetaR`,
`get_d2thetaR_dtheta2` of `get_dthetaR_dtheta`, and
`get_d2thetaR_drdtheta` of `get_dthetaR_dr` — no finite differencing. -/
theorem derivative_engine_closed_form (g : MXHGeo) (theta tR d1 d2 : ℝ) :
    get_thetaR g theta = theta + ∑ k : Fin n_moments,
        (g.cn k * Real.cos (((k : ℕ) : ℝ) * theta) +
          g.sn k * Real.sin (((k : ℕ) : ℝ) * theta)) ∧
    get_d2Rdtheta2 g tR d1 d2 false =
      -g.r_minor * Real.sin tR * d2 - g.r_minor * Real.cos tR * d1 ^ 2 ∧
    HasDerivAt (fun u => get_thetaR g u) (get_dthetaR_dtheta g theta) theta ∧
    HasDerivAt (fun u => get_dthetaR_dtheta g u)
      (get_d2thetaR_dtheta2 g theta) theta ∧
    HasDerivAt (fun u => get_dthetaR_dr u g.dcndr g.dsndr)
      (get_d2thetaR_drdtheta theta g.dcndr g.dsndr) theta := by
  refine ⟨rfl, ?_, ?_, ?_, ?_⟩
  · simp only [get_d2Rdtheta2, Bool.false_eq_true, if_false]
    ring
  · have hsum := HasDerivAt.sum
      (fun (k : Fin n_moments) (_ : k ∈ Finset.univ) =>
        hasDerivAt_harmonic (g.cn k) (g.sn k) (((k : ℕ) : ℝ)) theta)
    have h := (hasDerivAt_id theta).add hsum
    have hfun : (fun u => get_thetaR g u) =
        (fun u => id u + ∑ k : Fin n_moments,
          (g.cn k * Real.cos (((k : ℕ) : ℝ) * u) +
            g.sn k * Real.sin (((k : ℕ) : ℝ) * u))) := by
      funext u
      simp [get_thetaR]
    rw [hfun, get_dthetaR_dtheta]
    exact h
  · have hsum := HasDerivAt.sum
      (fun (k : Fin n_moments) (_ : k ∈ Finset.univ) =>
        hasDerivAt_harmonicD (g.cn k) (g.sn k) (((k : ℕ) : ℝ)) theta)
    have h := hsum.const_add (1 : ℝ)
    have hfun : (fun u => get_dthetaR_dtheta g u) =
        (fun u => (1 : ℝ) + ∑ k : Fin n_moments,
          (-g.cn k * ((k : ℕ) : ℝ) * Real.sin (((k : ℕ) : ℝ) * u) +
            g.sn k * ((k : ℕ) : ℝ) * Real.cos (((k : ℕ) : ℝ) * u))) := by
      funext u
      simp [get_dthetaR_dtheta]
    rw [hfun, get_d2thetaR_dtheta2, ← Finset.sum_neg_distrib]
    have hde : (∑ k : Fin n_moments,
        -((((k : ℕ) : ℝ)) ^ 2 *
          (g.cn k * Real.cos (((k : ℕ) : ℝ) * theta) +
            g.sn k * Real.sin (((k : ℕ) : ℝ) * theta)))) =
        ∑ k : Fin n_moments,
        (-((((k : ℕ) : ℝ)) ^ 2) *
          (g.cn k * Real.cos (((k : ℕ) : ℝ) * theta) +
            g.sn k * Real.sin (((k : ℕ) : ℝ) * theta))) :=
      Finset.sum_congr rfl (fun k _ => by ring)
    rw [hde]
    exact h
  · have hsum := HasDerivAt.sum
      (fun (k : Fin n_moments) (_ : k ∈ Finset.univ) =>
        hasDerivAt_harmonic (g.dcndr k) (g.dsndr k) (((k : ℕ) : ℝ)) theta)
    have hfun : (fun u => get_dthetaR_dr u g.dcndr g.dsndr) =
        (fun u => ∑ k : Fin n_moments,
          (g.dcndr k * Real.cos (((k : ℕ) : ℝ) * u) +
            g.dsndr k * Real.sin (((k : ℕ) : ℝ) * u))) := by
      funext u
      simp [get_dthetaR_dr]
    rw [hfun, get_d2thetaR_drdtheta]
    have hde : ∑ k : Fin n_moments,
        (-((k : ℕ) : ℝ) * g.dcndr k * Real.sin (((k : ℕ) : ℝ) * theta) +
          ((k : ℕ) : ℝ) * g.dsndr k * Real.cos (((k : ℕ) : ℝ) * theta)) =
        ∑ k : Fin n_moments,
        (-g.dcndr k * ((k : ℕ) : ℝ) * Real.sin (((k : ℕ) : ℝ) * theta) +
          g.dsndr k * ((k : ℕ) : ℝ) * Real.cos (((k : ℕ) : ℝ) * theta)) := by
      refine Finset.sum_congr rfl ?_
      intro k _
      ring
    rw [hde]
    exact hsum
